import Mathlib

/-!
Verification model of the partitioned columnar store and upload queue
(`storage.rs`, `uploader.rs`).  Timestamps are modelled as microseconds
since the Unix epoch (the precision actually persisted via
`timestamp_micros`), and 64-bit float values are modelled by their raw
IEEE-754 bit patterns (a bijection `f64.to_bits`), which is exactly the
representation the deduplication logic compares.
-/

namespace ScrapingSetup

/-- Number of microseconds in one day. -/
def dayMicros : Int := 86400000000

/-- Civil date from a count of days since 1970-01-01 (proleptic Gregorian
calendar, the Hinnant `civil_from_days` algorithm as used by chrono). -/
def civilFromDays (z : Int) : Int × Int × Int :=
  let z2 := z + 719468
  let era := z2.ediv 146097
  let doe := z2 - era * 146097
  let yoe := (doe - doe.ediv 1460 + doe.ediv 36524 - doe.ediv 146096).ediv 365
  let doy := doe - (365 * yoe + yoe.ediv 4 - yoe.ediv 100)
  let mp := (5 * doy + 2).ediv 153
  let d := doy - (153 * mp + 2).ediv 5 + 1
  let m := mp + (if mp < 10 then 3 else -9)
  (yoe + era * 400 + (if m ≤ 2 then 1 else 0), m, d)

/-- Days since 1970-01-01 of a civil date (Hinnant `days_from_civil`). -/
def daysFromCivil (y m d : Int) : Int :=
  let y2 := y - (if m ≤ 2 then 1 else 0)
  let era := y2.ediv 400
  let yoe := y2 - era * 400
  let mp := m + (if 2 < m then -3 else 9)
  let doy := (153 * mp + 2).ediv 5 + d - 1
  let doe := yoe * 365 + yoe.ediv 4 - yoe.ediv 100 + doy
  era * 146097 + doe - 719468

/-- Microseconds since the epoch of a UTC civil time. -/
def utcMicros (y m d h mi : Int) : Int :=
  ((daysFromCivil y m d) * 86400 + h * 3600 + mi * 60) * 1000000

/-- Weekday of a day count, 0 = Sunday (1970-01-01 was a Thursday = 4). -/
def weekday (z : Int) : Int := (z + 4).emod 7

/-- Day count of the last Sunday of March of a year. -/
def lastSundayOfMarch (y : Int) : Int :=
  let d := daysFromCivil y 3 31
  d - weekday d

/-- Day count of the last Sunday of October of a year. -/
def lastSundayOfOctober (y : Int) : Int :=
  let d := daysFromCivil y 10 31
  d - weekday d

/-- UTC offset (in microseconds) of the Europe/Vienna timezone at a UTC
instant given in microseconds: CET (+1h) in winter, CEST (+2h) between the
last Sunday of March 01:00 UTC and the last Sunday of October 01:00 UTC.
This models the IANA tzdb entry used by `chrono_tz::Europe::Vienna` for the
modern EU daylight-saving regime (in force since 1996), which covers every
instant this system stores. -/
def viennaOffsetMicros (t : Int) : Int :=
  let y := (civilFromDays (t.ediv dayMicros)).1
  let dstStart := (lastSundayOfMarch y) * dayMicros + 3600000000
  let dstEnd := (lastSundayOfOctober y) * dayMicros + 3600000000
  if dstStart ≤ t ∧ t < dstEnd then 7200000000 else 3600000000

/-- Civil calendar date of a UTC instant in the Europe/Vienna timezone,
modelling `start.with_timezone(&Vienna)` followed by `.year() .month() .day()`
in `Storage::save_if_new`. -/
def viennaCivilDateOfMicros (t : Int) : Int × Int × Int :=
  civilFromDays ((t + viennaOffsetMicros t).ediv dayMicros)

/-- Civil calendar date of a UTC instant in UTC itself (for contrast with
the Vienna-anchored partitioning). -/
def utcCivilDateOfMicros (t : Int) : Int × Int × Int :=
  civilFromDays (t.ediv dayMicros)

/-!
Data model of `Storage::process_partition`.  An incoming measurement is
`(start, end, value)` where the timestamps are UTC microseconds (the code
calls `timestamp_micros()` on both) and `value` is the raw 64-bit pattern
of the `f64` (the code compares and indexes `value.to_bits()`; `to_bits`
is a bijection, so carrying the pattern loses nothing).  A stored row also
carries the nullable `scraped_at` ingestion timestamp column.
-/

/-- One incoming measurement handed to `save_if_new`. -/
structure Meas where
  start : Int
  end_ : Int
  value : Nat
  deriving DecidableEq, Repr

/-- One row of a partition file: the three non-null columns plus the
nullable `scraped_at` column (`none` models rows written before that
column existed, which are read back null-filled). -/
structure Row where
  start : Int
  end_ : Int
  value : Nat
  scraped_at : Option Int
  deriving DecidableEq, Repr

/-- Lookup in an association list from dedup key to value bit pattern;
the first binding wins, which models `HashMap` lookup when insertion
prepends (the most recent insertion for a key is found). -/
def lookupKV (k : Int × Int) : List ((Int × Int) × Nat) → Option Nat
  | [] => none
  | (k0, v) :: rest => if k0 = k then some v else lookupKV k rest

/-- Extend a dedup index by the rows of a file chunk, in read order: a
later row with the same key overwrites an earlier one, exactly as
`latest_values.insert((start, end), value.to_bits())` does while the
existing batches are scanned. -/
def buildIndexFrom (init : List ((Int × Int) × Nat)) (rows : List Row) :
    List ((Int × Int) × Nat) :=
  rows.foldl (fun m r => ((r.start, r.end_), r.value) :: m) init

/-- Dedup index of an existing partition file, as built by the read loop
of `process_partition` (lines 148-153). -/
def buildIndex (rows : List Row) : List ((Int × Int) × Nat) :=
  buildIndexFrom [] rows

/-- The decision at lines 189-192: a record is marked changed when its key
is absent from the index or bound to a different bit pattern. -/
def isChangedAt (idx : List ((Int × Int) × Nat)) (m : Meas) : Bool :=
  match lookupKV (m.start, m.end_) idx with
  | some lastBits => lastBits != m.value
  | none => true

/-- The scan over the incoming records (lines 184-203): each record marked
changed is appended as a new row with `scraped_at = now` and the index is
updated immediately, so later records in the same call compare against it. -/
def scanNew (idx : List ((Int × Int) × Nat)) (data : List Meas) (nowMicros : Int) :
    List ((Int × Int) × Nat) × List Row :=
  match data with
  | [] => (idx, [])
  | m :: rest =>
    if isChangedAt idx m then
      let s := scanNew (((m.start, m.end_), m.value) :: idx) rest nowMicros
      (s.1, ⟨m.start, m.end_, m.value, some nowMicros⟩ :: s.2)
    else scanNew idx rest nowMicros

/-- Pure content-level result of `Storage::process_partition`: `none`
models the `Ok(false)` unchanged path (nothing written), `some rows`
models the changed path where the target file is atomically replaced by
`rows` = all existing rows followed by all newly appended rows. -/
def processPartitionPure (existing : Option (List Row)) (data : List Meas)
    (nowMicros : Int) : Option (List Row) :=
  let existingRows := existing.getD []
  let newRows := (scanNew (buildIndex existingRows) data nowMicros).2
  if newRows.isEmpty then none else some (existingRows ++ newRows)

/-!
Model of `Storage::save_if_new`.  The store of one data folder is a map
from civil-date partition key `(year, month, day)` to the rows of that
partition file (`none` = the file does not exist).  The `HashMap`
grouping is modelled as an association list in first-appearance order
with each group in input order (`entry().or_default().push`); since the
groups address pairwise distinct files, the iteration order of the
`HashMap` cannot influence the final store or the returned flag.
-/

/-- Store of one data folder: partition key to file contents. -/
def Store : Type := Int × Int × Int → Option (List Row)

/-- Point update of a store. -/
def updateStore (st : Store) (k : Int × Int × Int) (c : List Row) : Store :=
  fun k0 => if k0 = k then some c else st k0

/-- Append a measurement to the group of its key, creating the group at
the end on first appearance (models `groups.entry(key).or_default().push`). -/
def addToGroup (gs : List ((Int × Int × Int) × List Meas)) (k : Int × Int × Int)
    (m : Meas) : List ((Int × Int × Int) × List Meas) :=
  match gs with
  | [] => [(k, [m])]
  | (k0, g) :: rest =>
    if k0 = k then (k0, g ++ [m]) :: rest else (k0, g) :: addToGroup rest k m

/-- Grouping loop of `save_if_new` (lines 34-40) with its running
accumulator of groups. -/
def groupFold (acc : List ((Int × Int × Int) × List Meas)) :
    List Meas → List ((Int × Int × Int) × List Meas)
  | [] => acc
  | m :: rest => groupFold (addToGroup acc (viennaCivilDateOfMicros m.start) m) rest

/-- Grouping of `save_if_new`: each record joins the group of the Vienna
civil date of its start timestamp. -/
def groupByDay (data : List Meas) : List ((Int × Int × Int) × List Meas) :=
  groupFold [] data

/-- The per-group loop of `save_if_new` (lines 42-56): merge each group
into its partition file, record the file as saved when changed. -/
def saveGroups (st : Store) (saved : Bool)
    (groups : List ((Int × Int × Int) × List Meas)) (nowMicros : Int) :
    Store × Bool :=
  match groups with
  | [] => (st, saved)
  | (k, g) :: rest =>
    match processPartitionPure (st k) g nowMicros with
    | none => saveGroups st saved rest nowMicros
    | some c => saveGroups (updateStore st k c) true rest nowMicros

/-- Content-level model of `Storage::save_if_new` for one data folder:
group the records by Vienna civil day, merge each group, return the new
store and whether any partition changed. -/
def saveIfNew (st : Store) (data : List Meas) (nowMicros : Int) : Store × Bool :=
  saveGroups st false (groupByDay data) nowMicros

/-- The empty store: no partition file exists. -/
def emptyStore : Store := fun _ => none

/-!
Effect-level model of `process_partition` for the atomic-commit and
frame claims.  The function performs, in order: `create_dir_all` on the
parent of the target, then (only when some record changed) `File::create`
of the adjacent `.tmp` file, the full write of all batches into it, and
the atomic `rename` onto the target.  A fault index models an I/O error
at one of these operations: the failing operation has no effect and the
call returns the error.
-/

/-- Split a character list on the slash separator. -/
def splitOnSlash : List Char → List (List Char)
  | [] => [[]]
  | c :: rest =>
    match splitOnSlash rest with
    | [] => [[]]
    | h :: t => if c = '/' then [] :: h :: t else (c :: h) :: t

/-- Join character-list components with the slash separator. -/
def intercalateSlash : List (List Char) → List Char
  | [] => []
  | c :: [] => c
  | c :: rest => c ++ '/' :: intercalateSlash rest

/-- All ancestor directories of the parent of a path, outermost first;
models what `std::fs::create_dir_all(path.parent())` has to create. -/
def ancestorChain (p : String) : List String :=
  let comps := (splitOnSlash p.data).dropLast
  (List.range comps.length).map
    (fun i => String.mk (intercalateSlash (comps.take (i + 1))))

/-- A filesystem operation issued by `process_partition`. -/
inductive FsOp where
  | createDirAll (chain : List String)
  | createFile (p : String)
  | writeAll (p : String) (c : List Row)
  | rename (src dst : String)
  deriving DecidableEq

/-- Filesystem state: file contents by path, plus the set (as a list) of
existing directories. -/
structure FsState where
  files : String → Option (List Row)
  dirs : List String

/-- Point update of the file map. -/
def setFile (f : String → Option (List Row)) (p : String) (c : Option (List Row)) :
    String → Option (List Row) :=
  fun q => if q = p then c else f q

/-- Append a directory to the list when absent (creating an existing
directory is a no-op for `create_dir_all`). -/
def insertDir (l : List String) (p : String) : List String :=
  if p ∈ l then l else l ++ [p]

/-- Effect of one filesystem operation. -/
def applyOp (st : FsState) : FsOp → FsState
  | .createDirAll chain => { st with dirs := chain.foldl insertDir st.dirs }
  | .createFile p => { st with files := setFile st.files p (some []) }
  | .writeAll p c => { st with files := setFile st.files p (some c) }
  | .rename src dst =>
    { st with files := setFile (setFile st.files dst (st.files src)) src none }

/-- Run a list of operations with an optional fault injection point: the
operation at index `failAt` fails without effect and the run stops with
an error (`true` in the second component). -/
def runOps (st : FsState) (ops : List FsOp) (failAt : Option Nat) : FsState × Bool :=
  match ops, failAt with
  | [], _ => (st, false)
  | _ :: _, some 0 => (st, true)
  | op :: rest, some (n + 1) => runOps (applyOp st op) rest (some n)
  | op :: rest, none => runOps (applyOp st op) rest none

/-- The operation trace of `process_partition` on a target file whose
current contents are `existing`: directory creation always happens first
(line 121); when no record is marked changed nothing else is done (line
206); otherwise the temporary file adjacent to the target is created,
fully written, and renamed onto the target (lines 225-237). -/
def mergeOps (existing : Option (List Row)) (data : List Meas) (nowMicros : Int)
    (target : String) : List FsOp :=
  FsOp.createDirAll (ancestorChain target) ::
    (match processPartitionPure existing data nowMicros with
     | none => []
     | some c =>
       [FsOp.createFile (target ++ ".tmp"),
        FsOp.writeAll (target ++ ".tmp") c,
        FsOp.rename (target ++ ".tmp") target])

/-!
Model of `Storage::cleanup` / `cleanup_recursive`.  The directory tree is
a rose tree of named files and directories; the walk carries the names of
the parent and grandparent directory (in the code they are recovered from
the path) and deletes a `day=DD` directory whose parsed civil date is
strictly before the cutoff date; after recursing it removes a directory
that has become empty (`remove_dir` succeeds exactly on empty
directories).
-/

/-- Value of a decimal digit character. -/
def digitVal (c : Char) : Option Nat :=
  if '0' ≤ c ∧ c ≤ '9' then some (c.toNat - 48) else none

/-- Fold decimal digits into a number; any non-digit aborts. -/
def parseDigitsAux : Option Nat → List Char → Option Nat
  | acc, [] => acc
  | acc, c :: rest =>
    parseDigitsAux (acc.bind fun n => (digitVal c).map fun d => n * 10 + d) rest

/-- Parse a nonempty all-digit string. -/
def parseNatDigits : List Char → Option Nat
  | [] => none
  | l => parseDigitsAux (some 0) l

/-- Model of Rust `str::parse::<i32>`: optional sign, one or more digits,
value within the 32-bit signed range. -/
def parseI32 : List Char → Option Int
  | '+' :: rest =>
    (parseNatDigits rest).bind fun n =>
      if n ≤ 2147483647 then some (n : Int) else none
  | '-' :: rest =>
    (parseNatDigits rest).bind fun n =>
      if n ≤ 2147483648 then some (-(n : Int)) else none
  | l =>
    (parseNatDigits l).bind fun n =>
      if n ≤ 2147483647 then some (n : Int) else none

/-- Strip a literal character-list from the front. -/
def stripPrefixChars : List Char → List Char → Option (List Char)
  | [], l => some l
  | _ :: _, [] => none
  | p :: ps, c :: cs => if c = p then stripPrefixChars ps cs else none

/-- Model of `Storage::extract_date_part`: strip the given literal from
the front of the directory name and parse the rest as an `i32`. -/
def extract_date_part (name pre : String) : Option Int :=
  (stripPrefixChars pre.data name.data).bind parseI32

/-- Gregorian leap-year rule. -/
def isLeapYear (y : Int) : Bool :=
  (y.emod 4 == 0 && y.emod 100 != 0) || y.emod 400 == 0

/-- Number of days in a month. -/
def daysInMonth (y m : Int) : Int :=
  if m = 2 then (if isLeapYear y then 29 else 28)
  else if m = 4 ∨ m = 6 ∨ m = 9 ∨ m = 11 then 30 else 31

/-- Whether `Vienna.with_ymd_and_hms(y, m as u32, d as u32, 0, 0, 0)`
yields a unique instant: the month and day casts must not have wrapped a
negative `i32`, the civil date must exist, and the year must lie in the
`chrono::NaiveDate` range; local midnight is never ambiguous in Vienna
because its DST transitions happen at 02:00/03:00 local time. -/
def validDate (y m d : Int) : Bool :=
  decide (-262144 ≤ y) && decide (y ≤ 262143) && decide (1 ≤ m) &&
    decide (m ≤ 12) && decide (1 ≤ d) && decide (d ≤ daysInMonth y m)

/-- Parsed civil date of a candidate day-partition directory, following
the nesting of `cleanup_recursive` lines 75-80: the directory name must
parse under `day=`, the parent must exist and parse under `month=`, the
grandparent must exist and parse under `year=`, and the triple must form
a valid date. -/
def dayDirDate (n : String) (parent grand : Option String) :
    Option (Int × Int × Int) :=
  match extract_date_part n "day=" with
  | none => none
  | some day_val =>
    match parent.bind (fun p => extract_date_part p "month=") with
    | none => none
    | some month_val =>
      match grand.bind (fun g => extract_date_part g "year=") with
      | none => none
      | some year_val =>
        if validDate year_val month_val day_val then
          some (year_val, month_val, day_val)
        else none

/-- Chronological (lexicographic) order on civil dates, the order of
`NaiveDate` used by `date.date_naive() < cutoff_cet.date_naive()`. -/
def dateLt (a b : Int × Int × Int) : Bool :=
  decide (a.1 < b.1 ∨ (a.1 = b.1 ∧
    (a.2.1 < b.2.1 ∨ (a.2.1 = b.2.1 ∧ a.2.2 < b.2.2))))

/-- A directory tree entry. -/
inductive Entry where
  | file (name : String)
  | dir (name : String) (children : List Entry)

mutual

/-- Model of `Storage::cleanup_recursive` on one entry, carrying the
parent and grandparent directory names; `none` means the entry was
removed (either as an expired day partition with its whole subtree, or
as a directory that ended up empty). Files are never touched. -/
def cleanupEntry (cutoff : Int × Int × Int) (parent grand : Option String) :
    Entry → Option Entry
  | .file n => some (.file n)
  | .dir n children =>
    if (match dayDirDate n parent grand with
        | some dt => dateLt dt cutoff
        | none => false) then
      none
    else
      match cleanupChildren cutoff (some n) parent children with
      | [] => none
      | c :: cs => some (.dir n (c :: cs))

/-- Recursive cleanup of the children of a directory named by the first
`Option` argument. -/
def cleanupChildren (cutoff : Int × Int × Int) (parent grand : Option String) :
    List Entry → List Entry
  | [] => []
  | c :: rest =>
    match cleanupEntry cutoff parent grand c with
    | none => cleanupChildren cutoff parent grand rest
    | some c2 => c2 :: cleanupChildren cutoff parent grand rest

end

/-- Model of `Storage::cleanup`: the cutoff instant is `Utc::now()` minus
`retention_days` exact days, and its Vienna civil date is compared
against each parsed partition date. -/
def cleanup (root : Entry) (retention_days : Int) (nowMicros : Int) : Option Entry :=
  cleanupEntry (viennaCivilDateOfMicros (nowMicros - retention_days * dayMicros))
    none none root

/-!
Model of `Uploader`.  The key derivation of `upload_file` uses
`Path::strip_prefix("data/")`, which works on normalized path components
(empty and `.` segments are not components), and the remainder is the raw
tail of the path string with redundant leading and trailing separators
and `.` segments trimmed (`Components::as_path`).  The dirty set is a
`HashSet<String>`, modelled as a duplicate-free list; `drain` hands the
whole set to the upload phase and leaves the shared set empty, marks from
the store arrive during the upload phase, and failed paths are
re-inserted afterwards.
-/

/-- Normalized component list of a path string, as produced by Rust
`Path::components` on Unix: a leading root or `.` is kept as a marker
component, and empty and `.` segments are dropped. -/
def pathComponents (s : String) : List (List Char) :=
  if s.data = [] then []
  else
    match splitOnSlash s.data with
    | [] => []
    | first :: rest =>
      let norm := (first :: rest).filter (fun c => !(c == [] || c == ['.']))
      if first = [] then ['/'] :: (rest.filter (fun c => !(c == [] || c == ['.'])))
      else if first = ['.'] then
        ['.'] :: (rest.filter (fun c => !(c == [] || c == ['.'])))
      else norm

/-- Trim redundant leading separators and `.` segments from a raw path
tail, as `Components::as_path` does on the unconsumed remainder. -/
def trimLeftPath : List Char → List Char
  | [] => []
  | '/' :: rest => trimLeftPath rest
  | ['.'] => []
  | '.' :: '/' :: rest => trimLeftPath rest
  | l => l

/-- Auxiliary right trim working on the reversed character list. -/
def trimRightAux : List Char → List Char
  | [] => []
  | '/' :: rest => trimRightAux rest
  | '.' :: '/' :: rest => trimRightAux rest
  | l => l

/-- Trim redundant trailing separators and `.` segments. -/
def trimRightPath (l : List Char) : List Char :=
  (trimRightAux l.reverse).reverse

/-- Model of the key derivation in `Uploader::upload_file` (lines 77-79):
strip the `data/` prefix component-wise; on success the key is the
literal `data/` prepended to the trimmed remainder of the path, on
failure (`?` on `strip_prefix`) the function errors before attempting
any upload. -/
def uploadKey (s : String) : Option String :=
  match pathComponents s with
  | c :: _ =>
    if c = "data".data then
      some (String.mk ("data/".data ++ trimRightPath (trimLeftPath (s.data.drop 4))))
    else none
  | [] => none

/-- Insert into the dirty set (`HashSet::insert`): a no-op when the path
is already a member. -/
def insertPath (l : List String) (p : String) : List String :=
  if p ∈ l then l else p :: l

/-- One drain cycle of `Uploader::run` (lines 46-72): the dirty set is
swapped out whole as the batch and left empty; `marks` are the paths the
store inserts during the upload phase; every batch path for which the
upload fails is re-inserted after the batch completes. -/
def drainCycle (dirty marks : List String) (fails : String → Bool) : List String :=
  (dirty.filter fails).foldl insertPath (marks.foldl insertPath [])

/-- Upload outcome for one path in one cycle: a path whose key derivation
errors always fails; otherwise the network oracle decides. -/
def uploadFails (net : String → Bool) (p : String) : Bool :=
  match uploadKey p with
  | none => true
  | some _ => net p

/-- State of the dirty set after `n` drain cycles, with per-cycle store
marks and per-cycle network outcomes. -/
def iterateCycles (dirty : List String) (marks : Nat → List String)
    (net : Nat → String → Bool) : Nat → List String
  | 0 => dirty
  | n + 1 =>
    drainCycle (iterateCycles dirty marks net n) (marks n) (uploadFails (net n))

/-!
Specification-side helper definitions used to state the claims; they are
not part of the embedded program.
-/

/-- Bit pattern of the value carried by the last occurrence of a dedup
key in a record list, if the key occurs at all. -/
def lastOcc (k : Int × Int) : List Meas → Option Nat
  | [] => none
  | m :: rest =>
    match lastOcc k rest with
    | some v => some v
    | none => if (m.start, m.end_) = k then some m.value else none

/-- Group of a key in a grouping association list (empty when absent). -/
def lookupGroup : List ((Int × Int × Int) × List Meas) → (Int × Int × Int) → List Meas
  | [], _ => []
  | (k0, g) :: rest, k => if k0 = k then g else lookupGroup rest k

/-- Keys of a grouping association list. -/
def groupKeys (gs : List ((Int × Int × Int) × List Meas)) : List (Int × Int × Int) :=
  gs.map Prod.fst

/-- File contents after one merge: the rewritten contents when the merge
changed something, the unchanged prior contents otherwise. -/
def applyPure (existing : Option (List Row)) (data : List Meas) (nowMicros : Int) :
    Option (List Row) :=
  match processPartitionPure existing data nowMicros with
  | none => existing
  | some c => some c

/-- Whether a 64-bit pattern encodes an IEEE-754 double NaN (exponent all
ones, nonzero mantissa). -/
def isNaNBits (b : Nat) : Bool :=
  (b / 2 ^ 52) % 2 ^ 11 == 2047 && b % 2 ^ 52 != 0

/-- IEEE-754 numeric equality of two doubles given by their bit patterns:
a NaN is equal to nothing (itself included), positive and negative zero
are equal, and otherwise equality coincides with bit equality.  Used only
to contrast numeric equality with the bit-exact dedup comparison. -/
def f64EqBits (a b : Nat) : Bool :=
  if isNaNBits a || isNaNBits b then false
  else if a % 2 ^ 63 == 0 && b % 2 ^ 63 == 0 then true
  else a == b

/-- A quiet-NaN bit pattern (0x7FF8000000000000). -/
def nanBits : Nat := 9221120237041090560

/-- String-level prefix test, used to state the claims about paths that
start with the literal `data/`. -/
def strStartsWith (s pre : String) : Bool :=
  (stripPrefixChars pre.data s.data).isSome

/-!
Helper lemmas about the merge scan, the dedup index and the grouping.
-/

theorem isChangedAt_false_iff (idx : List ((Int × Int) × Nat)) (m : Meas) :
    isChangedAt idx m = false ↔ lookupKV (m.start, m.end_) idx = some m.value := by
  rw [isChangedAt]
  cases h : lookupKV (m.start, m.end_) idx with
  | none => simp
  | some b => simp only [bne_eq_false_iff_eq, Option.some.injEq]

theorem buildIndexFrom_cons (idx : List ((Int × Int) × Nat)) (r : Row) (rows : List Row) :
    buildIndexFrom idx (r :: rows) = buildIndexFrom (((r.start, r.end_), r.value) :: idx) rows := by
  simp [buildIndexFrom]

theorem buildIndexFrom_append (idx : List ((Int × Int) × Nat)) (a b : List Row) :
    buildIndexFrom idx (a ++ b) = buildIndexFrom (buildIndexFrom idx a) b := by
  simp [buildIndexFrom]

theorem scanNew_fst (data : List Meas) (idx : List ((Int × Int) × Nat)) (now : Int) :
    (scanNew idx data now).1 = buildIndexFrom idx (scanNew idx data now).2 := by
  induction data generalizing idx with
  | nil => simp [scanNew, buildIndexFrom]
  | cons m rest ih =>
    by_cases h : isChangedAt idx m
    · simp only [scanNew, h, if_true]
      rw [buildIndexFrom_cons]
      exact ih _
    · simp only [scanNew, h, if_false]
      exact ih _

theorem scanNew_noop (data : List Meas) (idx : List ((Int × Int) × Nat)) (now : Int)
    (h : ∀ m ∈ data, lookupKV (m.start, m.end_) idx = some m.value) :
    scanNew idx data now = (idx, []) := by
  induction data with
  | nil => simp [scanNew]
  | cons m rest ih =>
    have hm : isChangedAt idx m = false :=
      (isChangedAt_false_iff idx m).mpr (h m (List.mem_cons_self m rest))
    simp only [scanNew, hm, Bool.false_eq_true, if_false]
    exact ih (fun m2 hm2 => h m2 (List.mem_cons_of_mem m hm2))

theorem scanNew_nil_unchanged (data : List Meas) (idx : List ((Int × Int) × Nat)) (now : Int)
    (h : (scanNew idx data now).2 = []) :
    ∀ m ∈ data, lookupKV (m.start, m.end_) idx = some m.value := by
  induction data with
  | nil => simp
  | cons m rest ih =>
    by_cases hc : isChangedAt idx m
    · simp [scanNew, hc] at h
    · simp only [scanNew, hc, Bool.false_eq_true, if_false] at h
      intro m2 hm2
      rcases List.mem_cons.mp hm2 with h2 | h2
      · subst h2
        exact (isChangedAt_false_iff idx m2).mp (by simpa using hc)
      · exact ih h m2 h2

theorem scanNew_lookup (data : List Meas) (idx : List ((Int × Int) × Nat))
    (now : Int) (k : Int × Int) :
    lookupKV k (scanNew idx data now).1 =
      match lastOcc k data with
      | some v => some v
      | none => lookupKV k idx := by
  induction data generalizing idx with
  | nil => simp [scanNew, lastOcc]
  | cons m rest ih =>
    by_cases h : isChangedAt idx m
    · simp only [scanNew, h, if_true]
      rw [ih]
      cases hrest : lastOcc k rest with
      | some v => simp [lastOcc, hrest]
      | none =>
        by_cases hk : (m.start, m.end_) = k
        · simp [lastOcc, hrest, hk, lookupKV]
        · simp [lastOcc, hrest, hk, lookupKV]
    · have hb : isChangedAt idx m = false := by simpa using h
      simp only [scanNew, hb, Bool.false_eq_true, if_false]
      rw [ih]
      have hl : lookupKV (m.start, m.end_) idx = some m.value :=
        (isChangedAt_false_iff idx m).mp hb
      cases hrest : lastOcc k rest with
      | some v => simp [lastOcc, hrest]
      | none =>
        by_cases hk : (m.start, m.end_) = k
        · simp only [lastOcc, hrest, hk, if_true]
          rw [← hk]
          exact hl
        · simp [lastOcc, hrest, hk]

theorem lastOcc_mem (k : Int × Int) (data : List Meas) (v : Nat)
    (h : lastOcc k data = some v) :
    ∃ m ∈ data, (m.start, m.end_) = k ∧ m.value = v := by
  induction data with
  | nil => simp [lastOcc] at h
  | cons m rest ih =>
    rw [lastOcc] at h
    cases hrest : lastOcc k rest with
    | some w =>
      rw [hrest] at h
      simp only [Option.some.injEq] at h
      subst h
      obtain ⟨m2, hm2, hk2, hv2⟩ := ih hrest
      exact ⟨m2, List.mem_cons_of_mem m hm2, hk2, hv2⟩
    | none =>
      rw [hrest] at h
      by_cases hk : (m.start, m.end_) = k
      · simp only [hk, if_true, Option.some.injEq] at h
        exact ⟨m, List.mem_cons_self m rest, hk, h⟩
      · simp [hk] at h

theorem lastOcc_of_mem (k : Int × Int) (data : List Meas) (m : Meas)
    (hm : m ∈ data) (hk : (m.start, m.end_) = k) :
    ∃ v, lastOcc k data = some v := by
  induction data with
  | nil => simp at hm
  | cons m0 rest ih =>
    rcases List.mem_cons.mp hm with h | h
    · cases hrest : lastOcc k rest with
      | some v => exact ⟨v, by simp [lastOcc, hrest]⟩
      | none => exact ⟨m.value, by subst h; simp [lastOcc, hrest, hk]⟩
    · obtain ⟨v, hv⟩ := ih h
      exact ⟨v, by simp [lastOcc, hv]⟩

theorem processPartitionPure_eq (existing : Option (List Row)) (data : List Meas) (n : Int) :
    processPartitionPure existing data n =
      if (scanNew (buildIndex (existing.getD [])) data n).2.isEmpty then none
      else some (existing.getD [] ++ (scanNew (buildIndex (existing.getD [])) data n).2) := rfl

theorem processPartition_idem (existing : Option (List Row)) (g : List Meas) (n1 n2 : Int)
    (H : ∀ m ∈ g, ∀ m2 ∈ g, m.start = m2.start → m.end_ = m2.end_ → m.value = m2.value) :
    processPartitionPure (applyPure existing g n1) g n2 = none := by
  have key_lookup : ∀ m ∈ g,
      lookupKV (m.start, m.end_) (scanNew (buildIndex (existing.getD [])) g n1).1 =
        some m.value := by
    intro m hm
    rw [scanNew_lookup]
    obtain ⟨v, hv⟩ := lastOcc_of_mem (m.start, m.end_) g m hm rfl
    obtain ⟨m2, hm2, hk2, hv2⟩ := lastOcc_mem _ _ _ hv
    have h1 : m2.start = m.start := by
      have := congrArg Prod.fst hk2; simpa using this
    have h2 : m2.end_ = m.end_ := by
      have := congrArg Prod.snd hk2; simpa using this
    have heq : m2.value = m.value := H m2 hm2 m hm h1 h2
    simp only [hv]
    rw [← hv2, heq]
  by_cases hemp : (scanNew (buildIndex (existing.getD [])) g n1).2.isEmpty
  · have hnil : (scanNew (buildIndex (existing.getD [])) g n1).2 = [] := by
      simpa [List.isEmpty_iff] using hemp
    have happ : applyPure existing g n1 = existing := by
      rw [applyPure, processPartitionPure_eq]
      simp [hemp]
    rw [happ, processPartitionPure_eq]
    have hall := scanNew_nil_unchanged g (buildIndex (existing.getD [])) n1 hnil
    rw [scanNew_noop g _ n2 hall]
    simp
  · have happ : applyPure existing g n1 =
        some (existing.getD [] ++ (scanNew (buildIndex (existing.getD [])) g n1).2) := by
      rw [applyPure, processPartitionPure_eq]
      simp [hemp]
    rw [happ, processPartitionPure_eq]
    have hidx : buildIndex ((existing.getD []) ++ (scanNew (buildIndex (existing.getD [])) g n1).2) =
        (scanNew (buildIndex (existing.getD [])) g n1).1 := by
      rw [buildIndex, buildIndexFrom_append, ← buildIndex, ← scanNew_fst]
    simp only [Option.getD_some, hidx]
    rw [scanNew_noop g _ n2 key_lookup]
    simp

theorem lookupGroup_addToGroup_same (gs : List ((Int × Int × Int) × List Meas))
    (k : Int × Int × Int) (m : Meas) :
    lookupGroup (addToGroup gs k m) k = lookupGroup gs k ++ [m] := by
  induction gs with
  | nil => simp [addToGroup, lookupGroup]
  | cons p rest ih =>
    obtain ⟨k0, g⟩ := p
    by_cases h : k0 = k
    · simp [addToGroup, lookupGroup, h]
    · simp [addToGroup, lookupGroup, h, ih]

theorem lookupGroup_addToGroup_other (gs : List ((Int × Int × Int) × List Meas))
    (k k2 : Int × Int × Int) (m : Meas) (hne : k2 ≠ k) :
    lookupGroup (addToGroup gs k m) k2 = lookupGroup gs k2 := by
  induction gs with
  | nil => simp [addToGroup, lookupGroup, Ne.symm hne]
  | cons p rest ih =>
    obtain ⟨k0, g⟩ := p
    by_cases h : k0 = k
    · simp [addToGroup, lookupGroup, h, Ne.symm hne]
    · simp [addToGroup, lookupGroup, h, ih]

theorem groupKeys_addToGroup (gs : List ((Int × Int × Int) × List Meas))
    (k : Int × Int × Int) (m : Meas) :
    groupKeys (addToGroup gs k m) =
      if k ∈ groupKeys gs then groupKeys gs else groupKeys gs ++ [k] := by
  induction gs with
  | nil => simp [addToGroup, groupKeys]
  | cons p rest ih =>
    obtain ⟨k0, g⟩ := p
    by_cases h : k0 = k
    · simp [addToGroup, groupKeys, h]
    · have hne : k ≠ k0 := fun h2 => h h2.symm
      simp only [addToGroup, h, if_false, groupKeys, List.map_cons]
      rw [groupKeys] at ih
      simp only [List.mem_cons, hne, false_or]
      by_cases h2 : k ∈ List.map Prod.fst rest
      · simp [h2, ih, groupKeys]
      · simp [h2, ih, groupKeys]

theorem groupKeys_nodup_addToGroup (gs : List ((Int × Int × Int) × List Meas))
    (k : Int × Int × Int) (m : Meas) (h : (groupKeys gs).Nodup) :
    (groupKeys (addToGroup gs k m)).Nodup := by
  rw [groupKeys_addToGroup]
  by_cases h2 : k ∈ groupKeys gs
  · simpa [h2]
  · simp [h2, List.nodup_append, h]

theorem mem_iff_lookupGroup (gs : List ((Int × Int × Int) × List Meas))
    (k : Int × Int × Int) (g : List Meas) (hnd : (groupKeys gs).Nodup) :
    (k, g) ∈ gs ↔ k ∈ groupKeys gs ∧ lookupGroup gs k = g := by
  induction gs with
  | nil => simp [groupKeys, lookupGroup]
  | cons p rest ih =>
    obtain ⟨k0, g0⟩ := p
    rw [groupKeys, List.map_cons] at hnd
    have hk0 : k0 ∉ List.map Prod.fst rest := (List.nodup_cons.mp hnd).1
    have hrest : (groupKeys rest).Nodup := (List.nodup_cons.mp hnd).2
    constructor
    · intro hmem
      rcases List.mem_cons.mp hmem with h | h
      · obtain ⟨h1, h2⟩ := Prod.mk.injEq .. ▸ h
        subst h1; subst h2
        simp [groupKeys, lookupGroup]
      · have hkmem : k ∈ groupKeys rest := by
          rw [groupKeys]
          exact List.mem_map_of_mem Prod.fst h
        have hne : k0 ≠ k := by
          intro h2
          subst h2
          rw [groupKeys] at hkmem
          exact hk0 hkmem
        have h3 := (ih hrest).mp h
        refine ⟨?_, ?_⟩
        · rw [groupKeys, List.map_cons]
          exact List.mem_cons_of_mem _ (by rw [groupKeys] at hkmem; exact hkmem)
        · have hne2 : ¬k0 = k := hne
          simp [lookupGroup, hne2, h3.2]
    · intro ⟨hkmem, hlook⟩
      by_cases hne : k0 = k
      · subst hne
        simp only [lookupGroup, if_true] at hlook
        subst hlook
        exact List.mem_cons_self _ _
      · simp only [lookupGroup, hne, if_false] at hlook
        have hkrest : k ∈ groupKeys rest := by
          rw [groupKeys, List.map_cons] at hkmem
          rcases List.mem_cons.mp hkmem with h | h
          · exact absurd h.symm hne
          · rw [groupKeys]; exact h
        exact List.mem_cons_of_mem _ ((ih hrest).mpr ⟨hkrest, hlook⟩)

theorem lookupGroup_groupFold (data : List Meas)
    (acc : List ((Int × Int × Int) × List Meas)) (k : Int × Int × Int) :
    lookupGroup (groupFold acc data) k =
      lookupGroup acc k ++ data.filter (fun m => viennaCivilDateOfMicros m.start = k) := by
  induction data generalizing acc with
  | nil => simp [groupFold]
  | cons m rest ih =>
    rw [groupFold, ih]
    by_cases h : viennaCivilDateOfMicros m.start = k
    · rw [h, lookupGroup_addToGroup_same]
      simp [List.filter_cons, h]
    · rw [lookupGroup_addToGroup_other _ _ _ _ (fun h2 => h h2.symm)]
      simp [List.filter_cons, h]

theorem groupKeys_nodup_groupFold (data : List Meas)
    (acc : List ((Int × Int × Int) × List Meas)) (h : (groupKeys acc).Nodup) :
    (groupKeys (groupFold acc data)).Nodup := by
  induction data generalizing acc with
  | nil => exact h
  | cons m rest ih => exact ih _ (groupKeys_nodup_addToGroup _ _ _ h)

theorem groupKeys_mono_groupFold (data : List Meas)
    (acc : List ((Int × Int × Int) × List Meas)) (k : Int × Int × Int)
    (h : k ∈ groupKeys acc) : k ∈ groupKeys (groupFold acc data) := by
  induction data generalizing acc with
  | nil => simpa [groupFold]
  | cons m rest ih =>
    rw [groupFold]
    apply ih
    rw [groupKeys_addToGroup]
    by_cases h2 : viennaCivilDateOfMicros m.start ∈ groupKeys acc
    · simpa [h2]
    · simp [h2, h]

theorem dateKey_mem_groupFold (data : List Meas)
    (acc : List ((Int × Int × Int) × List Meas)) (m : Meas) (hm : m ∈ data) :
    viennaCivilDateOfMicros m.start ∈ groupKeys (groupFold acc data) := by
  induction data generalizing acc with
  | nil => simp at hm
  | cons m0 rest ih =>
    rw [groupFold]
    rcases List.mem_cons.mp hm with h | h
    · subst h
      apply groupKeys_mono_groupFold
      rw [groupKeys_addToGroup]
      by_cases h2 : viennaCivilDateOfMicros m.start ∈ groupKeys acc
      · simp [h2]
      · simp [h2]
    · exact ih _ h

theorem groupByDay_keys_nodup (data : List Meas) :
    (groupKeys (groupByDay data)).Nodup :=
  groupKeys_nodup_groupFold data [] (by simp [groupKeys])

theorem groupByDay_group_eq (data : List Meas) (k : Int × Int × Int) (g : List Meas)
    (h : (k, g) ∈ groupByDay data) :
    g = data.filter (fun m => viennaCivilDateOfMicros m.start = k) := by
  have h2 := (mem_iff_lookupGroup _ _ _ (groupByDay_keys_nodup data)).mp h
  have h3 := lookupGroup_groupFold data [] k
  rw [groupByDay] at h2
  rw [h2.2] at h3
  simpa [lookupGroup] using h3

theorem groupByDay_mem_of_mem (data : List Meas) (m : Meas) (hm : m ∈ data) :
    (viennaCivilDateOfMicros m.start,
      data.filter (fun m2 => viennaCivilDateOfMicros m2.start = viennaCivilDateOfMicros m.start))
      ∈ groupByDay data := by
  apply (mem_iff_lookupGroup _ _ _ (groupByDay_keys_nodup data)).mpr
  refine ⟨dateKey_mem_groupFold data [] m hm, ?_⟩
  rw [groupByDay, lookupGroup_groupFold]
  simp [lookupGroup]

theorem saveGroups_untouched (groups : List ((Int × Int × Int) × List Meas))
    (st : Store) (saved : Bool) (n : Int) (k : Int × Int × Int)
    (h : k ∉ groupKeys groups) :
    (saveGroups st saved groups n).1 k = st k := by
  induction groups generalizing st saved with
  | nil => simp [saveGroups]
  | cons p rest ih =>
    obtain ⟨k0, g⟩ := p
    rw [groupKeys, List.map_cons, List.mem_cons] at h
    push_neg at h
    rw [saveGroups]
    cases hp : processPartitionPure (st k0) g n with
    | none => exact ih _ _ (h.2)
    | some c =>
      rw [ih _ _ (h.2)]
      simp [updateStore, h.1]

theorem saveGroups_lookup (groups : List ((Int × Int × Int) × List Meas))
    (st : Store) (saved : Bool) (n : Int) (k : Int × Int × Int) (g : List Meas)
    (hnd : (groupKeys groups).Nodup) (hmem : (k, g) ∈ groups) :
    (saveGroups st saved groups n).1 k = applyPure (st k) g n := by
  induction groups generalizing st saved with
  | nil => simp at hmem
  | cons p rest ih =>
    obtain ⟨k0, g0⟩ := p
    rw [groupKeys, List.map_cons] at hnd
    have hk0 : k0 ∉ List.map Prod.fst rest := (List.nodup_cons.mp hnd).1
    have hrest : (groupKeys rest).Nodup := (List.nodup_cons.mp hnd).2
    rcases List.mem_cons.mp hmem with h | h
    · obtain ⟨h1, h2⟩ := Prod.mk.injEq .. ▸ h
      subst h1; subst h2
      rw [saveGroups]
      cases hp : processPartitionPure (st k) g n with
      | none =>
        rw [saveGroups_untouched rest st saved n k (by rw [groupKeys]; exact hk0)]
        rw [applyPure, hp]
      | some c =>
        rw [saveGroups_untouched rest _ _ n k (by rw [groupKeys]; exact hk0)]
        rw [applyPure, hp]
        simp [updateStore]
    · have hkrest : k ∈ List.map Prod.fst rest := List.mem_map_of_mem Prod.fst h
      have hne : k ≠ k0 := by
        intro h2; subst h2; exact hk0 hkrest
      rw [saveGroups]
      cases hp : processPartitionPure (st k0) g0 n with
      | none => exact ih _ _ hrest h
      | some c =>
        rw [ih _ _ hrest h]
        simp [updateStore, hne]

theorem saveGroups_noop (groups : List ((Int × Int × Int) × List Meas))
    (st : Store) (saved : Bool) (n : Int)
    (h : ∀ k g, (k, g) ∈ groups → processPartitionPure (st k) g n = none) :
    saveGroups st saved groups n = (st, saved) := by
  induction groups with
  | nil => simp [saveGroups]
  | cons p rest ih =>
    obtain ⟨k0, g0⟩ := p
    rw [saveGroups, h k0 g0 (List.mem_cons_self _ _)]
    exact ih (fun k g hkg => h k g (List.mem_cons_of_mem _ hkg))

theorem mem_insertPath (l : List String) (p q : String) :
    q ∈ insertPath l p ↔ q ∈ l ∨ q = p := by
  unfold insertPath
  by_cases h : p ∈ l
  · simp only [h, if_true]
    exact ⟨fun hq => Or.inl hq, fun hq => hq.elim id (fun he => he ▸ h)⟩
  · simp [h, List.mem_cons, or_comm]

theorem mem_foldl_insertPath (l init : List String) (q : String) :
    q ∈ l.foldl insertPath init ↔ q ∈ init ∨ q ∈ l := by
  induction l generalizing init with
  | nil => simp
  | cons a rest ih =>
    rw [List.foldl_cons, ih, mem_insertPath]
    simp [List.mem_cons, or_assoc]

theorem nodup_insertPath (l : List String) (p : String) (h : l.Nodup) :
    (insertPath l p).Nodup := by
  unfold insertPath
  by_cases hp : p ∈ l
  · simp [hp, h]
  · simp [hp, List.nodup_cons, h]

theorem nodup_foldl_insertPath (l init : List String) (h : init.Nodup) :
    (l.foldl insertPath init).Nodup := by
  induction l generalizing init with
  | nil => exact h
  | cons a rest ih => exact ih _ (nodup_insertPath _ _ h)

theorem mem_drainCycle (dirty marks : List String) (fails : String → Bool) (q : String) :
    q ∈ drainCycle dirty marks fails ↔ q ∈ marks ∨ (q ∈ dirty ∧ fails q = true) := by
  unfold drainCycle
  rw [mem_foldl_insertPath, mem_foldl_insertPath]
  simp [List.mem_filter]

theorem nodup_drainCycle (dirty marks : List String) (fails : String → Bool) :
    (drainCycle dirty marks fails).Nodup :=
  nodup_foldl_insertPath _ _ (nodup_foldl_insertPath _ _ List.nodup_nil)

theorem splitOnSlash_ne_nil (l : List Char) : splitOnSlash l ≠ [] := by
  cases l with
  | nil => simp [splitOnSlash]
  | cons c rest =>
    rw [splitOnSlash]
    cases splitOnSlash rest with
    | nil => simp
    | cons h t =>
      by_cases hc : c = '/' <;> simp [hc]

theorem splitOnSlash_append_slash (a b : List Char) (ha : '/' ∉ a) :
    splitOnSlash (a ++ '/' :: b) = a :: splitOnSlash b := by
  induction a with
  | nil =>
    cases hs : splitOnSlash b with
    | nil => exact absurd hs (splitOnSlash_ne_nil b)
    | cons h t => simp [splitOnSlash, hs]
  | cons c a2 ih =>
    have hc : c ≠ '/' := by
      intro h
      exact ha (h ▸ List.mem_cons_self c a2)
    have ha2 : '/' ∉ a2 := fun h => ha (List.mem_cons_of_mem c h)
    rw [List.cons_append, splitOnSlash, ih ha2]
    simp [hc]

theorem file_mem_cleanupChildren (cutoff : Int × Int × Int) (p g : Option String)
    (children : List Entry) (fn : String) (h : Entry.file fn ∈ children) :
    Entry.file fn ∈ cleanupChildren cutoff p g children := by
  induction children with
  | nil => simp at h
  | cons c rest ih =>
    rcases List.mem_cons.mp h with h2 | h2
    · subst h2
      simp [cleanupChildren, cleanupEntry]
    · rw [cleanupChildren]
      cases cleanupEntry cutoff p g c with
      | none => exact ih h2
      | some c2 => exact List.mem_cons_of_mem _ (ih h2)

theorem foldl_insertDir_noop (chain l : List String) (h : ∀ d ∈ chain, d ∈ l) :
    chain.foldl insertDir l = l := by
  induction chain generalizing l with
  | nil => rfl
  | cons a rest ih =>
    rw [List.foldl_cons]
    have h2 : insertDir l a = l := by simp [insertDir, h a (List.mem_cons_self a rest)]
    rw [h2]
    exact ih l (fun d hd => h d (List.mem_cons_of_mem a hd))

theorem tmp_ne_target (s : String) : ¬(s ++ ".tmp" = s) := by
  intro h
  have h2 := congrArg String.data h
  simp [String.data_append] at h2

theorem isChangedAt_true_iff (idx : List ((Int × Int) × Nat)) (m : Meas) :
    isChangedAt idx m = true ↔ lookupKV (m.start, m.end_) idx ≠ some m.value := by
  constructor
  · intro ht hl
    have h2 := (isChangedAt_false_iff idx m).mpr hl
    rw [ht] at h2
    cases h2
  · intro hne
    cases h : isChangedAt idx m
    · exact absurd ((isChangedAt_false_iff idx m).mp h) hne
    · rfl

theorem scanNew_scraped_at (data : List Meas) (idx : List ((Int × Int) × Nat))
    (now : Int) (r : Row) (h : r ∈ (scanNew idx data now).2) :
    r.scraped_at = some now := by
  induction data generalizing idx with
  | nil => simp [scanNew] at h
  | cons m rest ih =>
    by_cases hc : isChangedAt idx m
    · simp only [scanNew, hc, if_true] at h
      rcases List.mem_cons.mp h with h2 | h2
      · rw [h2]
      · exact ih _ h2
    · have hb : isChangedAt idx m = false := by simpa using hc
      simp only [scanNew, hb, Bool.false_eq_true, if_false] at h
      exact ih _ h

/-!
Claim theorems.
-/

/-- C1, counterexample.  The claim states that when `save` is called once
with two records sharing the dedup key `(S, E)` but carrying bit-different
values, only the last occurrence is persisted and the earlier value never
touches disk.  On the code, both occurrences are appended to the written
file: the merge of the two-record batch persists the earlier value (bits 5)
as well as the later one (bits 6). -/
theorem c1_batch_collapse_counterexample :
    (saveIfNew emptyStore
        [⟨utcMicros 2025 6 15 10 0, utcMicros 2025 6 15 11 0, 5⟩,
         ⟨utcMicros 2025 6 15 10 0, utcMicros 2025 6 15 11 0, 6⟩] 777).1 (2025, 6, 15) =
      some [⟨utcMicros 2025 6 15 10 0, utcMicros 2025 6 15 11 0, 5, some 777⟩,
            ⟨utcMicros 2025 6 15 10 0, utcMicros 2025 6 15 11 0, 6, some 777⟩] := by
  decide

/-- C1, amended.  When one merge call receives two records with the same
dedup key and bit-different values `V1` then `V2`, and the stored pattern
for that key (if any) also differs from `V1`, then BOTH records are
appended to the file, in order; the dropped-before-disk collapse applies
only to a record whose bits equal the pattern most recently recorded for
its key.  The second conjunct is the index-update invariant the claim
also asserts: after the scan the in-memory index equals the file index
rebuilt over the appended rows, so each later record in the same call
compares against the most recent earlier occurrence. -/
theorem c1_batch_collapse_amended (existing : List Row) (s e : Int) (v1 v2 : Nat)
    (now : Int) (h1 : lookupKV (s, e) (buildIndex existing) ≠ some v1) (h2 : v1 ≠ v2) :
    processPartitionPure (some existing) [⟨s, e, v1⟩, ⟨s, e, v2⟩] now =
      some (existing ++ [⟨s, e, v1, some now⟩, ⟨s, e, v2, some now⟩]) ∧
    (∀ (idx : List ((Int × Int) × Nat)) (data : List Meas) (n : Int),
        (scanNew idx data n).1 = buildIndexFrom idx (scanNew idx data n).2) := by
  refine ⟨?_, fun idx data n => scanNew_fst data idx n⟩
  have hc1 : isChangedAt (buildIndex existing) ⟨s, e, v1⟩ = true :=
    (isChangedAt_true_iff _ _).mpr h1
  have hc2 : isChangedAt (((s, e), v1) :: buildIndex existing) ⟨s, e, v2⟩ = true := by
    rw [isChangedAt]
    simp only [lookupKV, if_pos rfl]
    simpa [bne_iff_ne] using h2
  rw [processPartitionPure_eq]
  simp only [Option.getD_some]
  simp [scanNew, hc1, hc2]

/-- C1, witness for the amended theorem at a concrete input. -/
theorem c1_batch_collapse_amended_witness :
    processPartitionPure (some []) [⟨0, 1, 5⟩, ⟨0, 1, 6⟩] 7 =
      some [⟨0, 1, 5, some 7⟩, ⟨0, 1, 6, some 7⟩] :=
  (c1_batch_collapse_amended [] 0 1 5 6 7 (by decide) (by decide)).1

/-- C3, counterexample.  The claim states that calling `save` twice with
identical input is idempotent, the second call writing nothing and
returning false.  On the code this fails whenever the input repeats a
dedup key with two different bit patterns: the first call appends both
patterns, so on the second call the index holds the last pattern, the
first record differs again, and the call rewrites the file and returns
true (the partition grows by two more rows). -/
theorem c3_idempotence_counterexample :
    (saveIfNew
        (saveIfNew emptyStore
          [⟨utcMicros 2025 6 15 10 0, utcMicros 2025 6 15 11 0, 5⟩,
           ⟨utcMicros 2025 6 15 10 0, utcMicros 2025 6 15 11 0, 6⟩] 100).1
        [⟨utcMicros 2025 6 15 10 0, utcMicros 2025 6 15 11 0, 5⟩,
         ⟨utcMicros 2025 6 15 10 0, utcMicros 2025 6 15 11 0, 6⟩] 200).2 = true ∧
    (saveIfNew
        (saveIfNew emptyStore
          [⟨utcMicros 2025 6 15 10 0, utcMicros 2025 6 15 11 0, 5⟩,
           ⟨utcMicros 2025 6 15 10 0, utcMicros 2025 6 15 11 0, 6⟩] 100).1
        [⟨utcMicros 2025 6 15 10 0, utcMicros 2025 6 15 11 0, 5⟩,
         ⟨utcMicros 2025 6 15 10 0, utcMicros 2025 6 15 11 0, 6⟩] 200).1 (2025, 6, 15) =
      some [⟨utcMicros 2025 6 15 10 0, utcMicros 2025 6 15 11 0, 5, some 100⟩,
            ⟨utcMicros 2025 6 15 10 0, utcMicros 2025 6 15 11 0, 6, some 100⟩,
            ⟨utcMicros 2025 6 15 10 0, utcMicros 2025 6 15 11 0, 5, some 200⟩,
            ⟨utcMicros 2025 6 15 10 0, utcMicros 2025 6 15 11 0, 6, some 200⟩] := by
  constructor
  · decide
  · decide

/-- C3, amended.  Calling `save` twice with identical input performs no
write on the second call and returns false PROVIDED no dedup key occurs
in the input with two different bit patterns (in particular whenever the
dedup keys are pairwise distinct); the first conjunct states that every
partition group merges to the unchanged result on the second call. -/
theorem c3_idempotence_amended (st0 : Store) (data : List Meas) (n1 n2 : Int)
    (H : ∀ m ∈ data, ∀ m2 ∈ data, m.start = m2.start → m.end_ = m2.end_ →
      m.value = m2.value) :
    (∀ k g, (k, g) ∈ groupByDay data →
        processPartitionPure ((saveIfNew st0 data n1).1 k) g n2 = none) ∧
    saveIfNew (saveIfNew st0 data n1).1 data n2 = ((saveIfNew st0 data n1).1, false) := by
  have hnd := groupByDay_keys_nodup data
  have hmain : ∀ k g, (k, g) ∈ groupByDay data →
      processPartitionPure ((saveIfNew st0 data n1).1 k) g n2 = none := by
    intro k g hkg
    have hst1 : (saveIfNew st0 data n1).1 k = applyPure (st0 k) g n1 := by
      rw [saveIfNew]
      exact saveGroups_lookup _ _ _ _ _ _ hnd hkg
    rw [hst1]
    apply processPartition_idem
    intro m hm m2 hm2
    have hgd := groupByDay_group_eq data k g hkg
    have hmd : m ∈ data := by
      rw [hgd] at hm
      exact (List.mem_filter.mp hm).1
    have hmd2 : m2 ∈ data := by
      rw [hgd] at hm2
      exact (List.mem_filter.mp hm2).1
    exact H m hmd m2 hmd2
  refine ⟨hmain, ?_⟩
  rw [saveIfNew]
  exact saveGroups_noop _ _ _ _ hmain

/-- C3, witness for the amended theorem: a duplicate-free concrete input
is idempotent. -/
theorem c3_idempotence_amended_witness :
    saveIfNew (saveIfNew emptyStore [⟨0, 1, 5⟩] 3).1 [⟨0, 1, 5⟩] 4 =
      ((saveIfNew emptyStore [⟨0, 1, 5⟩] 3).1, false) :=
  (c3_idempotence_amended emptyStore [⟨0, 1, 5⟩] 3 4 (by decide)).2

/-- C4.  A single-record merge is unchanged exactly when the raw 64-bit
pattern of the incoming value equals the pattern most recently stored for
its dedup key (first conjunct); the index keeps the most recently read
row per key (second conjunct); two NaN values with identical bit patterns
compare equal for dedup even though IEEE numeric equality rejects them
(third conjunct, at the quiet-NaN pattern); and a changed value is
appended as a new row while every old row stays in the file (fourth
conjunct: the new contents are the old rows with the new row appended). -/
theorem c4_bit_exact_dedup :
    (∀ (existing : List Row) (m : Meas) (now : Int),
        processPartitionPure (some existing) [m] now = none ↔
          lookupKV (m.start, m.end_) (buildIndex existing) = some m.value) ∧
    (∀ (rows : List Row) (r : Row),
        lookupKV (r.start, r.end_) (buildIndex (rows ++ [r])) = some r.value) ∧
    (processPartitionPure (some [⟨0, 1, nanBits, some 5⟩]) [⟨0, 1, nanBits⟩] 99 = none ∧
      isNaNBits nanBits = true ∧ f64EqBits nanBits nanBits = false) ∧
    (∀ (existing : List Row) (m : Meas) (now : Int) (v1 : Nat),
        lookupKV (m.start, m.end_) (buildIndex existing) = some v1 → v1 ≠ m.value →
        processPartitionPure (some existing) [m] now =
          some (existing ++ [⟨m.start, m.end_, m.value, some now⟩])) := by
  refine ⟨?_, ?_, by decide, ?_⟩
  · intro existing m now
    rw [processPartitionPure_eq]
    simp only [Option.getD_some]
    cases hc : isChangedAt (buildIndex existing) m
    · simp [scanNew, hc, (isChangedAt_false_iff _ _).mp hc]
    · have hne := (isChangedAt_true_iff _ _).mp hc
      simp [scanNew, hc, hne]
  · intro rows r
    rw [buildIndex, buildIndexFrom_append, ← buildIndex]
    simp [buildIndexFrom, lookupKV]
  · intro existing m now v1 hl hne
    have hc : isChangedAt (buildIndex existing) m = true := by
      apply (isChangedAt_true_iff _ _).mpr
      simpa [hl] using hne
    rw [processPartitionPure_eq]
    simp only [Option.getD_some]
    simp [scanNew, hc]

/-- C4, witness: appending a changed value (bits 6 over stored bits 5)
keeps the old row and adds the new one. -/
theorem c4_bit_exact_dedup_witness :
    processPartitionPure (some [⟨0, 1, 5, none⟩]) [⟨0, 1, 6⟩] 9 =
      some [⟨0, 1, 5, none⟩, ⟨0, 1, 6, some 9⟩] :=
  c4_bit_exact_dedup.2.2.2 [⟨0, 1, 5, none⟩] ⟨0, 1, 6⟩ 9 5 (by decide) (by decide)

/-- C5.  The partition of a measurement is determined solely by the civil
calendar date, in the Vienna reference timezone, of its interval start:
every member of a group of `save_if_new` has that group's key as its
Vienna date (first conjunct), every record lands in the group of its
Vienna date (second conjunct), and concretely an interval start of
2025-03-30T23:30:00Z belongs to the 2025-03-31 partition (local time
01:30 at UTC+2) although its UTC calendar date is 2025-03-30 (third
conjunct). -/
theorem c5_civil_day_partitioning :
    (∀ (data : List Meas) (k : Int × Int × Int) (g : List Meas) (m : Meas),
        (k, g) ∈ groupByDay data → m ∈ g → k = viennaCivilDateOfMicros m.start) ∧
    (∀ (data : List Meas) (m : Meas), m ∈ data →
        ∃ g, (viennaCivilDateOfMicros m.start, g) ∈ groupByDay data ∧ m ∈ g) ∧
    (viennaCivilDateOfMicros (utcMicros 2025 3 30 23 30) = (2025, 3, 31) ∧
      utcCivilDateOfMicros (utcMicros 2025 3 30 23 30) = (2025, 3, 30) ∧
      viennaOffsetMicros (utcMicros 2025 3 30 23 30) = 7200000000) := by
  refine ⟨?_, ?_, by decide⟩
  · intro data k g m hkg hm
    have hgd := groupByDay_group_eq data k g hkg
    rw [hgd] at hm
    have h2 := List.mem_filter.mp hm
    have h3 := of_decide_eq_true h2.2
    exact h3.symm
  · intro data m hm
    exact ⟨_, groupByDay_mem_of_mem data m hm, by simp [List.mem_filter, hm]⟩

/-- C5, witness: the concrete DST-boundary record is grouped under the
2025-03-31 partition key. -/
theorem c5_civil_day_partitioning_witness :
    ∃ g, ((2025, 3, 31),
        g) ∈ groupByDay [⟨utcMicros 2025 3 30 23 30, utcMicros 2025 3 30 23 45, 5⟩] ∧
      (⟨utcMicros 2025 3 30 23 30, utcMicros 2025 3 30 23 45, 5⟩ : Meas) ∈ g := by
  have h := c5_civil_day_partitioning.2.1
    [⟨utcMicros 2025 3 30 23 30, utcMicros 2025 3 30 23 45, 5⟩]
    ⟨utcMicros 2025 3 30 23 30, utcMicros 2025 3 30 23 45, 5⟩ (by decide)
  have he : viennaCivilDateOfMicros
      (utcMicros 2025 3 30 23 30) = ((2025 : Int), (3 : Int), (31 : Int)) := by decide
  rw [he] at h
  exact h

/-- C6, counterexample.  The claim states that with `retention_days = N`
and today `T` in the reference timezone, a day partition dated
`T - N - 1` is deleted.  The code instead subtracts `N` exact 24-hour
days from the current instant and only then converts to the Vienna civil
date, so across the spring DST transition the cutoff can land one day
earlier than `T - N`.  Concretely, at 2025-03-30T22:30:00Z the Vienna
date `T` is 2025-03-31, yet with `N = 1` the partition dated 2025-03-29
(= `T - N - 1`) is retained, the tree coming back unchanged. -/
theorem c6_retention_boundary_counterexample :
    (viennaCivilDateOfMicros (utcMicros 2025 3 30 22 30) = (2025, 3, 31) ∧
      daysFromCivil 2025 3 29 = daysFromCivil 2025 3 31 - 1 - 1) ∧
    cleanup
        (Entry.dir "data" [Entry.dir "year=2025" [Entry.dir "month=03"
          [Entry.dir "day=29" [Entry.file "data.parquet"]]]])
        1 (utcMicros 2025 3 30 22 30) =
      some (Entry.dir "data" [Entry.dir "year=2025" [Entry.dir "month=03"
        [Entry.dir "day=29" [Entry.file "data.parquet"]]]]) := by
  exact ⟨by decide, rfl⟩

/-- C6, amended.  The cutoff is the Vienna civil date of the instant
`now - N` exact days (which differs from `T - N` by one day across a DST
transition, as the counterexample shows).  A day-partition directory
whose name, parent and grandparent parse under the `day=`/`month=`/
`year=` convention and whose valid parsed civil date is before that
cutoff date is deleted with its contents (first conjunct); one whose
parsed date is at or after the cutoff and which contains a file is
retained (second conjunct); and a directory that does not parse under
the convention is never deleted by the date comparison — it survives
whenever it contains a file, only empty directories being pruned (third
conjunct). -/
theorem c6_retention_boundary_amended :
    (∀ (cutoff : Int × Int × Int) (p g : Option String) (n : String)
        (children : List Entry) (dt : Int × Int × Int),
        dayDirDate n p g = some dt → dateLt dt cutoff = true →
        cleanupEntry cutoff p g (Entry.dir n children) = none) ∧
    (∀ (cutoff : Int × Int × Int) (p g : Option String) (n : String)
        (children : List Entry) (dt : Int × Int × Int) (fn : String),
        dayDirDate n p g = some dt → dateLt dt cutoff = false →
        Entry.file fn ∈ children →
        ∃ cs, cleanupEntry cutoff p g (Entry.dir n children) = some (Entry.dir n cs) ∧
          Entry.file fn ∈ cs) ∧
    (∀ (cutoff : Int × Int × Int) (p g : Option String) (n : String)
        (children : List Entry) (fn : String),
        dayDirDate n p g = none → Entry.file fn ∈ children →
        ∃ cs, cleanupEntry cutoff p g (Entry.dir n children) = some (Entry.dir n cs) ∧
          Entry.file fn ∈ cs) := by
  refine ⟨?_, ?_, ?_⟩
  · intro cutoff p g n children dt h hlt
    rw [cleanupEntry, h]
    simp [hlt]
  · intro cutoff p g n children dt fn h hlt hmem
    have hfm := file_mem_cleanupChildren cutoff (some n) p children fn hmem
    rw [cleanupEntry, h]
    simp only [hlt, Bool.false_eq_true, if_false]
    cases hcc : cleanupChildren cutoff (some n) p children with
    | nil =>
      rw [hcc] at hfm
      simp at hfm
    | cons c cs =>
      rw [hcc] at hfm
      exact ⟨c :: cs, rfl, hfm⟩
  · intro cutoff p g n children fn h hmem
    have hfm := file_mem_cleanupChildren cutoff (some n) p children fn hmem
    rw [cleanupEntry, h]
    simp only [Bool.false_eq_true, if_false]
    cases hcc : cleanupChildren cutoff (some n) p children with
    | nil =>
      rw [hcc] at hfm
      simp at hfm
    | cons c cs =>
      rw [hcc] at hfm
      exact ⟨c :: cs, rfl, hfm⟩

/-- C6, witness: a conforming day directory dated 2025-03-29 with a data
file is deleted under cutoff 2025-04-01 by the first conjunct, and
retained under cutoff 2025-03-29 by the second conjunct. -/
theorem c6_retention_boundary_amended_witness :
    cleanupEntry (2025, 4, 1) (some "month=03") (some "year=2025")
        (Entry.dir "day=29" [Entry.file "data.parquet"]) = none ∧
    ∃ cs, cleanupEntry (2025, 3, 29) (some "month=03") (some "year=2025")
        (Entry.dir "day=29" [Entry.file "data.parquet"]) =
          some (Entry.dir "day=29" cs) ∧ Entry.file "data.parquet" ∈ cs :=
  ⟨c6_retention_boundary_amended.1 (2025, 4, 1) (some "month=03") (some "year=2025")
      "day=29" [Entry.file "data.parquet"] (2025, 3, 29) (by decide) (by decide),
    c6_retention_boundary_amended.2.1 (2025, 3, 29) (some "month=03") (some "year=2025")
      "day=29" [Entry.file "data.parquet"] (2025, 3, 29) "data.parquet"
      (by decide) (by decide) (by simp)⟩

/-- C7.  A partition merge in which no incoming measurement is marked
changed returns the unchanged result and leaves the filesystem untouched:
the only operation issued is the directory-creation call, and in a
well-formed state (the ancestors of the target already exist, as they
must when nothing is new) running the merge operations returns the state
unchanged with no error. -/
theorem c7_unchanged_frame (st : FsState) (target : String) (data : List Meas)
    (now : Int) (hpure : processPartitionPure (st.files target) data now = none)
    (hdirs : ∀ d ∈ ancestorChain target, d ∈ st.dirs) :
    mergeOps (st.files target) data now target =
      [FsOp.createDirAll (ancestorChain target)] ∧
    runOps st (mergeOps (st.files target) data now target) none = (st, false) := by
  have hops : mergeOps (st.files target) data now target =
      [FsOp.createDirAll (ancestorChain target)] := by
    rw [mergeOps, hpure]
  refine ⟨hops, ?_⟩
  rw [hops]
  simp [runOps, applyOp, foldl_insertDir_noop _ _ hdirs]

/-- C7, witness: an unchanged merge against a concrete state with the
target file and its ancestor directories present. -/
theorem c7_unchanged_frame_witness :
    runOps
        ⟨fun p => if p = "data/x/data.parquet" then some [⟨0, 1, 5, none⟩] else none,
          ["data", "data/x"]⟩
        (mergeOps
          ((⟨fun p => if p = "data/x/data.parquet" then some [⟨0, 1, 5, none⟩] else none,
            ["data", "data/x"]⟩ : FsState).files "data/x/data.parquet")
          [⟨0, 1, 5⟩] 42 "data/x/data.parquet") none =
      (⟨fun p => if p = "data/x/data.parquet" then some [⟨0, 1, 5, none⟩] else none,
        ["data", "data/x"]⟩, false) :=
  (c7_unchanged_frame
      ⟨fun p => if p = "data/x/data.parquet" then some [⟨0, 1, 5, none⟩] else none,
        ["data", "data/x"]⟩
      "data/x/data.parquet" [⟨0, 1, 5⟩] 42 (by decide) (by decide)).2

/-- C2.  When a merge does rewrite a partition, the operation trace is
exactly: create the directories, create the adjacent temporary file,
write the full merged contents into it, and rename it onto the target.
An injected fault at any of these operations makes the run return an
error with the target file byte-for-byte unmodified (first conjunct); a
fault-free run installs exactly the merged contents at the target and
reports no error (second and third conjuncts); and the temporary path is
distinct from the target, so the target is never written in place
(fourth conjunct). -/
theorem c2_atomic_rename (st : FsState) (target : String) (data : List Meas)
    (now : Int) (c : List Row)
    (hpure : processPartitionPure (st.files target) data now = some c) :
    (∀ k, k < (mergeOps (st.files target) data now target).length →
        (runOps st (mergeOps (st.files target) data now target) (some k)).2 = true ∧
        (runOps st (mergeOps (st.files target) data now target) (some k)).1.files target =
          st.files target) ∧
    (runOps st (mergeOps (st.files target) data now target) none).1.files target = some c ∧
    (runOps st (mergeOps (st.files target) data now target) none).2 = false ∧
    (target ++ ".tmp") ≠ target := by
  have hops : mergeOps (st.files target) data now target =
      [FsOp.createDirAll (ancestorChain target),
       FsOp.createFile (target ++ ".tmp"),
       FsOp.writeAll (target ++ ".tmp") c,
       FsOp.rename (target ++ ".tmp") target] := by
    rw [mergeOps, hpure]
  have hne : (target ++ ".tmp") ≠ target := tmp_ne_target target
  have hne2 : target ≠ target ++ ".tmp" := Ne.symm hne
  rw [hops]
  refine ⟨?_, ?_, ?_, hne⟩
  · intro k hk
    simp only [List.length_cons, List.length_nil] at hk
    interval_cases k
    · exact ⟨rfl, rfl⟩
    · exact ⟨rfl, rfl⟩
    · refine ⟨rfl, ?_⟩
      simp [runOps, applyOp, setFile, hne2]
    · refine ⟨rfl, ?_⟩
      simp [runOps, applyOp, setFile, hne2]
  · simp [runOps, applyOp, setFile, hne2]
  · rfl

/-- C2, witness: a fault injected at the rename step of a concrete merge
errors out and leaves the (absent) target file untouched. -/
theorem c2_atomic_rename_witness :
    (runOps (⟨fun _ => none, []⟩ : FsState)
        (mergeOps ((⟨fun _ => none, []⟩ : FsState).files "data/x/data.parquet")
          [⟨0, 1, 5⟩] 7 "data/x/data.parquet") (some 3)).2 = true ∧
    (runOps (⟨fun _ => none, []⟩ : FsState)
        (mergeOps ((⟨fun _ => none, []⟩ : FsState).files "data/x/data.parquet")
          [⟨0, 1, 5⟩] 7 "data/x/data.parquet") (some 3)).1.files "data/x/data.parquet" =
      (⟨fun _ => none, []⟩ : FsState).files "data/x/data.parquet" :=
  (c2_atomic_rename (⟨fun _ => none, []⟩ : FsState) "data/x/data.parquet"
      [⟨0, 1, 5⟩] 7 [⟨0, 1, 5, some 7⟩] (by decide)).1 3 (by decide)

/-- C8.  One drain cycle swaps the whole dirty set out as the batch and
leaves the shared set holding exactly the marks that arrived during the
upload phase plus the re-inserted failed paths (first conjunct, a full
membership characterisation of the post-cycle set), and a path that
fails upload reappears in the dirty set exactly once — its multiplicity
in the post-cycle set is one even when the store re-marked the same path
during the upload phase (second conjunct). -/
theorem c8_upload_retry_idempotence (dirty marks : List String)
    (fails : String → Bool) (p : String) (hp : p ∈ dirty) (hf : fails p = true) :
    (∀ q, q ∈ drainCycle dirty marks fails ↔
        q ∈ marks ∨ (q ∈ dirty ∧ fails q = true)) ∧
    List.count p (drainCycle dirty marks fails) = 1 := by
  refine ⟨fun q => mem_drainCycle dirty marks fails q, ?_⟩
  have hmem : p ∈ drainCycle dirty marks fails :=
    (mem_drainCycle dirty marks fails p).mpr (Or.inr ⟨hp, hf⟩)
  exact List.count_eq_one_of_mem (nodup_drainCycle dirty marks fails) hmem

/-- C8, witness: a failing path that is also re-marked during the upload
phase appears exactly once after the drain. -/
theorem c8_upload_retry_idempotence_witness :
    List.count "data/x/data.parquet"
      (drainCycle ["data/x/data.parquet", "data/y/data.parquet"]
        ["data/x/data.parquet"] (fun p => p = "data/x/data.parquet")) = 1 :=
  (c8_upload_retry_idempotence ["data/x/data.parquet", "data/y/data.parquet"]
      ["data/x/data.parquet"] (fun p => p = "data/x/data.parquet")
      "data/x/data.parquet" (by decide) (by decide)).2

/-- C9, counterexample.  The claim states that the derived key is
identical to the local path whenever the path starts with the string
`data/`, and that any path not starting with `data/` makes `upload_file`
error.  Both directions fail on the code, which strips a leading `data`
PATH COMPONENT: `data//x` starts with `data/` yet derives the different
key `data/x` (the redundant separator is not preserved), and the path
`data` does not start with `data/` yet strips successfully (deriving the
key `data/`) instead of erroring. -/
theorem c9_upload_key_counterexample :
    (strStartsWith "data//x" "data/" = true ∧
      uploadKey "data//x" = some "data/x" ∧ ("data/x" : String) ≠ "data//x") ∧
    (strStartsWith "data" "data/" = false ∧ uploadKey "data" = some "data/") := by
  exact ⟨⟨by decide, by decide, by decide⟩, ⟨by decide, by decide⟩⟩

/-- C9, amended.  The key is derived component-wise: for a path that is
the literal `data/` followed by a remainder already free of redundant
leading or trailing separators and `.` segments, the derived key equals
the path (first conjunct — in particular this covers every partition
path the store produces under base `data`); the derivation errors
exactly when the first normalized path component is not `data` (second
conjunct); and a path whose derivation errors fails its upload every
cycle and is re-queued into the dirty set on every subsequent cycle
forever (third conjunct). -/
theorem c9_upload_key_amended :
    (∀ r : List Char, trimLeftPath r = r → trimRightPath r = r →
        uploadKey (String.mk ("data/".data ++ r)) =
          some (String.mk ("data/".data ++ r))) ∧
    (∀ s : String, uploadKey s = none ↔
        ¬(pathComponents s).head? = some "data".data) ∧
    (∀ (p : String) (dirty : List String) (marks : Nat → List String)
        (net : Nat → String → Bool), uploadKey p = none → p ∈ dirty →
        ∀ n, p ∈ iterateCycles dirty marks net n) := by
  refine ⟨?_, ?_, ?_⟩
  · intro r h1 h2
    have hsplit : splitOnSlash (String.mk ("data/".data ++ r)).data =
        "data".data :: splitOnSlash r :=
      splitOnSlash_append_slash "data".data r (by decide)
    have hcomp : pathComponents (String.mk ("data/".data ++ r)) =
        "data".data :: (splitOnSlash r).filter (fun c => !(c == [] || c == ['.'])) := by
      rw [pathComponents, if_neg (by simp), hsplit]
      dsimp only
      rw [if_neg (by decide), if_neg (by decide), List.filter_cons_of_pos (by decide)]
    rw [uploadKey, hcomp]
    dsimp only
    rw [if_pos rfl]
    have hdrop : (String.mk ("data/".data ++ r)).data.drop 4 = '/' :: r := rfl
    rw [hdrop]
    have htl : trimLeftPath ('/' :: r) = r := by rw [trimLeftPath, h1]
    rw [htl, h2]
  · intro s
    rw [uploadKey]
    cases hc : pathComponents s with
    | nil => simp
    | cons c rest =>
      by_cases h : c = "data".data
      · simp [h]
      · simp [h]
  · intro p dirty marks net hkey hmem n
    induction n with
    | zero => exact hmem
    | succ n ih =>
      rw [iterateCycles]
      apply (mem_drainCycle _ _ _ _).mpr
      refine Or.inr ⟨ih, ?_⟩
      rw [uploadFails, hkey]

/-- C9, witness for the amended theorem: a normalized store-shaped path
under `data/` round-trips to itself as the upload key. -/
theorem c9_upload_key_amended_witness :
    uploadKey (String.mk ("data/".data ++ "sub/year=2025/month=03/day=31/data.parquet".data)) =
      some (String.mk ("data/".data ++ "sub/year=2025/month=03/day=31/data.parquet".data)) :=
  c9_upload_key_amended.1 "sub/year=2025/month=03/day=31/data.parquet".data
    (by decide) (by decide)

/-- C10.  Every row appended by one partition merge carries the same
single ingestion timestamp, the one `now` captured before the records
are processed: every row of the rewritten file is either a pre-existing
row or has `scraped_at = some now`. -/
theorem c10_single_scrape_timestamp (existing : Option (List Row)) (data : List Meas)
    (now : Int) (c : List Row) (hp : processPartitionPure existing data now = some c) :
    ∀ r ∈ c, r ∈ existing.getD [] ∨ r.scraped_at = some now := by
  rw [processPartitionPure_eq] at hp
  by_cases hemp : (scanNew (buildIndex (existing.getD [])) data now).2.isEmpty
  · simp [hemp] at hp
  · rw [if_neg hemp] at hp
    have hc : c = existing.getD [] ++ (scanNew (buildIndex (existing.getD [])) data now).2 :=
      (Option.some.injEq .. ▸ hp).symm
    intro r hr
    rw [hc] at hr
    rcases List.mem_append.mp hr with h | h
    · exact Or.inl h
    · exact Or.inr (scanNew_scraped_at data _ now r h)

/-- C10, witness: both rows appended by a two-record merge carry the one
captured timestamp. -/
theorem c10_single_scrape_timestamp_witness :
    (⟨0, 1, 5, some 7⟩ : Row) ∈ ((some ([] : List Row)).getD []) ∨
      (⟨0, 1, 5, some 7⟩ : Row).scraped_at = some 7 :=
  c10_single_scrape_timestamp (some []) [⟨0, 1, 5⟩, ⟨2, 3, 6⟩] 7
    [⟨0, 1, 5, some 7⟩, ⟨2, 3, 6, some 7⟩] (by decide) ⟨0, 1, 5, some 7⟩ (by decide)

end ScrapingSetup
